import Mathlib

/-!
# DirectorySync: a shallow embedding of `.github/scripts/compare_dirs.py`

The script synchronizes `./directory2` with `./directory1`:

* `main` first evaluates `filecmp.dircmp(dir1, dir2).left_only` — the list of
  top-level names present in `dir1` but absent from `dir2`.  If it is empty the
  script prints "Directories are identical. No action needed." and returns.
* Otherwise it deletes every top-level entry of `dir2` whose name is not
  `specific` and for which `os.path.exists` is true (`shutil.rmtree` for
  directories, `os.remove` otherwise).
* Finally the custom `copytree(dir1, dir2)` walks `os.listdir(dir1)`: a
  directory child is copied with `shutil.copytree` (a plain full recursive
  copy) unless its name is `specific`; every non-directory child is copied
  with `shutil.copy2`, with no name check.

We model a directory listing as an association list from names to entries.  An
entry is a file (with abstract content), a directory (with its own listing),
or a dangling symbolic link — the one kind of entry for which `os.path.exists`
reports `False` while the name still appears in `os.listdir`.  Filesystem
errors are modelled with `Except`: `shutil.copy2` follows a dangling link and
raises `FileNotFoundError`; `shutil.copytree` raises `FileExistsError` when
its destination already exists (its internal `os.makedirs`) and raises
`shutil.Error` when the copied subtree contains a dangling link (with
`symlinks=False` it tries to copy the missing target of the link).  The script
installs no exception handler, so in the model an error from any step is the
result of the whole run.
-/

/-- A filesystem entry as the script can observe it: a regular file (content
abstracted to a `Nat`), a directory with its child listing, or a dangling
symbolic link (`os.listdir` shows it, `os.path.exists` is `False`). -/
inductive Entry : Type where
  | file : Nat → Entry
  | dir : List (String × Entry) → Entry
  | broken : Entry
deriving Repr

/-- A directory listing: `os.listdir` order, names paired with entries. -/
abbrev Listing := List (String × Entry)

/-- Model of `os.path.exists`: false exactly for a dangling symbolic link
(`os.path.exists` follows links). -/
def pathExists : Entry → Bool
  | .broken => false
  | _ => true

/-- Model of `os.path.isdir` (it also follows links; a dangling link is not a dir). -/
def isdir : Entry → Bool
  | .dir _ => true
  | _ => false

/-- The top-level names of a listing, as `os.listdir` returns them. -/
def names (d : Listing) : List String := d.map Prod.fst

/-- Model of `filecmp.dircmp(dir1, dir2).left_only`: the top-level names of `dir1`
that do not occur among the top-level names of `dir2`. -/
def left_only (d1 d2 : Listing) : List String :=
  (names d1).filter (fun n => !(names d2).contains n)

/-- The clear step of `main` (the first `for` loop): each top-level entry of
`directory2` is deleted — `shutil.rmtree` if it is a directory, `os.remove`
otherwise — exactly when `item != "specific" and os.path.exists(s)`.  What
remains is the listing filtered to the entries failing that test. -/
def clearPhase (d2 : Listing) : Listing :=
  d2.filter (fun p => p.1 == "specific" || !pathExists p.2)

mutual

/-- Whether an entry contains a dangling symbolic link anywhere (the entries
`shutil.copytree` with `symlinks=False` fails to copy, making it raise
`shutil.Error`). -/
def hasBroken : Entry → Bool
  | .broken => true
  | .file _ => false
  | .dir ch => hasBrokenList ch

/-- Whether any entry of a listing contains a dangling symbolic link. -/
def hasBrokenList : List (String × Entry) → Bool
  | [] => false
  | (_, e) :: rest => hasBroken e || hasBrokenList rest

end

/-- The filesystem errors the operations of the script can raise.  The script
defines no error types of its own and catches nothing. -/
inductive FsError : Type where
  /-- `FileNotFoundError`: a listed path is missing (a missing input
  directory, or `shutil.copy2` following a dangling link). -/
  | notFound : String → FsError
  /-- `FileExistsError`: `os.makedirs` inside `shutil.copytree` when the
  destination name already exists. -/
  | fileExists : String → FsError
  /-- `shutil.Error`: `shutil.copytree` collected per-file failures (a
  dangling link inside the copied subtree, with `symlinks=False`). -/
  | copytreeError : String → FsError
deriving DecidableEq, Repr

/-- Resolve the name `n` in a listing: the entry of the first pair named `n`,
if any (what the path `dst/n` denotes). -/
def findEntry : Listing → String → Option Entry
  | [], _ => none
  | (m, e) :: rest, n => if m == n then some e else findEntry rest n

/-- Replace the first entry named `n` with `(n, e)`; append `(n, e)` if no
entry is named `n`.  This is how creating/overwriting the path `dst/n`
changes the destination listing. -/
def updateEntry : Listing → String → Entry → Listing
  | [], n, e => [(n, e)]
  | (m, x) :: rest, n, e =>
    if m == n then (n, e) :: rest else (m, x) :: updateEntry rest n e

/-- Model of `shutil.copy2(s, d)` for a non-directory source entry `s` and destination
path `dst/item`.  `copy2` follows links, so a dangling link as source raises
`FileNotFoundError`.  If `dst/item` is an existing directory, the file is
copied *into* it under its own base name (`item`), as `shutil.copy2`
specifies.  Otherwise `dst/item` is created or overwritten with a
metadata-preserving copy.  (When `dst/item` is a dangling link, opening it
for writing creates the target of the link; observably the name then holds the
copied file, which is how we record it.) -/
def copy2 (item : String) (s : Entry) (dst : Listing) : Except FsError Listing :=
  match s with
  | .broken => .error (.notFound item)
  | .dir _ => .error (.notFound item)
  | .file c =>
    match findEntry dst item with
    | some (.dir ch) =>
        .ok (updateEntry dst item (.dir (updateEntry ch item (.file c))))
    | _ => .ok (updateEntry dst item (.file c))

/-- The custom `copytree(src, dst)` of the script: iterate `os.listdir(src)`; a
directory child is copied with `shutil.copytree` (full recursive copy — an
identical subtree — failing with `FileExistsError` if the destination name
exists and with `shutil.Error` if the subtree holds a dangling link) unless
the name of the child is `specific`; any other child is copied with
`shutil.copy2`.  The `!= "specific"` test is applied only to the direct
children of `src`. -/
def copytree : Listing → Listing → Except FsError Listing
  | [], dst => .ok dst
  | (item, s) :: rest, dst =>
    if isdir s then
      if item == "specific" then
        copytree rest dst
      else if (names dst).contains item then
        .error (.fileExists item)
      else if hasBroken s then
        .error (.copytreeError item)
      else
        copytree rest (dst ++ [(item, s)])
    else
      match copy2 item s dst with
      | .error e => .error e
      | .ok dst2 => copytree rest dst2

/-- The outcome of a successful run of `main`: the final state of
`directory2` and whether the "Directories are identical. No action needed."
line was printed. -/
structure SyncResult : Type where
  dest : Listing
  noopMessage : Bool
deriving Repr

/-- Model of `main` on the two directory listings: if `left_only` is empty, print the
no-action message and return without touching anything; otherwise clear
`directory2` (sparing `specific` and entries failing `os.path.exists`) and
run `copytree(directory1, directory2)`.  An uncaught error from any step is
the result of the run. -/
def sync (d1 d2 : Listing) : Except FsError SyncResult :=
  if (left_only d1 d2).isEmpty then
    .ok ⟨d2, true⟩
  else
    match copytree d1 (clearPhase d2) with
    | .error e => .error e
    | .ok d => .ok ⟨d, false⟩

/-- Model of `main` when an input directory may be missing (or not a directory):
`filecmp.dircmp(dir1, dir2).left_only` calls `os.listdir` on `dir1` first,
then `dir2`, and a missing path raises `FileNotFoundError`, which the script
does not catch. -/
def syncPaths (o1 o2 : Option Listing) : Except FsError SyncResult :=
  match o1, o2 with
  | none, _ => .error (.notFound "directory1")
  | some _, none => .error (.notFound "directory2")
  | some d1, some d2 => sync d1 d2

/-! ## Basic facts about names, `findEntry` and `updateEntry` -/

theorem mem_names {d : Listing} {n : String} : n ∈ names d ↔ ∃ e, (n, e) ∈ d := by
  constructor
  · intro h
    obtain ⟨⟨m, e⟩, hmem, hfst⟩ := List.mem_map.mp h
    exact ⟨e, by simpa [← hfst] using hmem⟩
  · rintro ⟨e, h⟩
    exact List.mem_map.mpr ⟨(n, e), h, rfl⟩

theorem findEntry_eq_none {d : Listing} {n : String} (h : n ∉ names d) :
    findEntry d n = none := by
  induction d with
  | nil => rfl
  | cons hd rest ih =>
    obtain ⟨m, e⟩ := hd
    have hne : m ≠ n := by
      rintro rfl
      exact h (List.mem_map.mpr ⟨(m, e), List.mem_cons_self _ _, rfl⟩)
    have hrest : n ∉ names rest := fun hr => h (List.mem_cons_of_mem _ hr)
    simpa [findEntry, hne] using ih hrest

theorem mem_of_findEntry {d : Listing} {n : String} {e : Entry}
    (h : findEntry d n = some e) : (n, e) ∈ d := by
  induction d with
  | nil => simp [findEntry] at h
  | cons hd rest ih =>
    obtain ⟨m, x⟩ := hd
    by_cases hmn : m = n
    · subst hmn
      simp only [findEntry, beq_self_eq_true, if_true, Option.some.injEq] at h
      subst h
      exact List.mem_cons_self _ _
    · simp only [findEntry, beq_iff_eq, hmn, if_false] at h
      exact List.mem_cons_of_mem _ (ih h)

theorem names_mem_of_findEntry {d : Listing} {n : String} {e : Entry}
    (h : findEntry d n = some e) : n ∈ names d :=
  mem_names.mpr ⟨e, mem_of_findEntry h⟩

theorem findEntry_of_mem_nodup {d : Listing} {n : String} {e : Entry}
    (hnd : (names d).Nodup) (h : (n, e) ∈ d) : findEntry d n = some e := by
  induction d with
  | nil => simp at h
  | cons hd rest ih =>
    obtain ⟨m, x⟩ := hd
    rcases List.mem_cons.mp h with heq | hmem
    · cases heq
      simp [findEntry]
    · have hmn : m ≠ n := by
        rintro rfl
        exact (List.nodup_cons.mp hnd).1 (mem_names.mpr ⟨e, hmem⟩)
      simpa [findEntry, hmn] using ih (List.nodup_cons.mp hnd).2 hmem

theorem entry_unique_of_nodup {d : Listing} {n : String} {a b : Entry}
    (hnd : (names d).Nodup) (ha : (n, a) ∈ d) (hb : (n, b) ∈ d) : a = b := by
  have h1 := findEntry_of_mem_nodup hnd ha
  have h2 := findEntry_of_mem_nodup hnd hb
  rw [h1] at h2
  exact (Option.some.injEq _ _ ▸ h2).symm ▸ rfl

theorem findEntry_append_sngl {d : Listing} {m n : String} {e : Entry}
    (h : m ≠ n) : findEntry (d ++ [(m, e)]) n = findEntry d n := by
  induction d with
  | nil => simp [findEntry, h]
  | cons hd rest ih =>
    obtain ⟨k, x⟩ := hd
    by_cases hkn : k = n
    · subst hkn
      simp [findEntry]
    · simp [findEntry, hkn, ih]

theorem findEntry_append_self {d : Listing} {n : String} {e : Entry}
    (h : n ∉ names d) : findEntry (d ++ [(n, e)]) n = some e := by
  induction d with
  | nil => simp [findEntry]
  | cons hd rest ih =>
    obtain ⟨k, x⟩ := hd
    have hkn : k ≠ n := by
      rintro rfl
      exact h (List.mem_map.mpr ⟨(k, x), List.mem_cons_self _ _, rfl⟩)
    have hrest : n ∉ names rest := fun hr => h (List.mem_cons_of_mem _ hr)
    simpa [findEntry, hkn] using ih hrest

theorem findEntry_updateEntry_self (d : Listing) (n : String) (e : Entry) :
    findEntry (updateEntry d n e) n = some e := by
  induction d with
  | nil => simp [updateEntry, findEntry]
  | cons hd rest ih =>
    obtain ⟨m, x⟩ := hd
    by_cases hmn : m = n <;> simp [updateEntry, findEntry, hmn, ih]

theorem findEntry_updateEntry_ne {d : Listing} {m n : String} (e : Entry)
    (h : m ≠ n) : findEntry (updateEntry d n e) m = findEntry d m := by
  induction d with
  | nil => simp [updateEntry, findEntry, Ne.symm h]
  | cons hd rest ih =>
    obtain ⟨k, x⟩ := hd
    by_cases hkn : k = n
    · subst hkn
      simp [updateEntry, findEntry, Ne.symm h]
    · by_cases hkm : k = m
      · subst hkm
        simp [updateEntry, findEntry, hkn]
      · simp [updateEntry, findEntry, hkn, hkm, ih]

theorem mem_updateEntry_ne {d : Listing} {m n : String} {e x : Entry}
    (h : m ≠ n) : (m, x) ∈ updateEntry d n e ↔ (m, x) ∈ d := by
  induction d with
  | nil => simp [updateEntry, h]
  | cons hd rest ih =>
    obtain ⟨k, y⟩ := hd
    by_cases hkn : k = n
    · subst hkn
      simp only [updateEntry, beq_self_eq_true, if_true]
      constructor
      · intro hh
        rcases List.mem_cons.mp hh with heq | hm
        · cases heq; exact absurd rfl h
        · exact List.mem_cons_of_mem _ hm
      · intro hh
        rcases List.mem_cons.mp hh with heq | hm
        · cases heq; exact absurd rfl h
        · exact List.mem_cons_of_mem _ hm
    · simp [updateEntry, hkn, ih]

theorem mem_names_updateEntry {d : Listing} {m n : String} {e : Entry} :
    m ∈ names (updateEntry d n e) ↔ m ∈ names d ∨ m = n := by
  induction d with
  | nil => simp [updateEntry, names]
  | cons hd rest ih =>
    obtain ⟨k, y⟩ := hd
    by_cases hkn : k = n
    · subst hkn
      simp only [updateEntry, beq_self_eq_true, if_true, names, List.map_cons]
      constructor
      · intro hh
        rcases List.mem_cons.mp hh with heq | hm
        · exact Or.inr heq
        · exact Or.inl (List.mem_cons_of_mem _ hm)
      · intro hh
        rcases hh with hm | heq
        · rcases List.mem_cons.mp hm with heq | hm'
          · exact List.mem_cons.mpr (Or.inl heq)
          · exact List.mem_cons_of_mem _ hm'
        · exact List.mem_cons.mpr (Or.inl heq)
    · simp only [updateEntry, beq_iff_eq, hkn, if_false, names, List.map_cons,
        List.mem_cons]
      rw [names] at ih
      tauto

theorem updateEntry_eq_append {d : Listing} {n : String} {e : Entry}
    (h : n ∉ names d) : updateEntry d n e = d ++ [(n, e)] := by
  induction d with
  | nil => simp [updateEntry]
  | cons hd rest ih =>
    obtain ⟨k, x⟩ := hd
    have hkn : k ≠ n := by
      rintro rfl
      exact h (List.mem_map.mpr ⟨(k, x), List.mem_cons_self _ _, rfl⟩)
    have hrest : n ∉ names rest := fun hr => h (List.mem_cons_of_mem _ hr)
    simp [updateEntry, hkn, ih hrest]

theorem pathExists_eq_false_iff {e : Entry} : pathExists e = false ↔ e = .broken := by
  cases e <;> simp [pathExists]

theorem isdir_iff {e : Entry} : isdir e = true ↔ ∃ ch, e = .dir ch := by
  cases e <;> simp [isdir]

/-! ## Facts about `hasBroken` and `clearPhase` -/

theorem hasBroken_of_mem {d : List (String × Entry)} {n : String} {e : Entry}
    (hd : hasBrokenList d = false) (h : (n, e) ∈ d) : hasBroken e = false := by
  induction d with
  | nil => simp at h
  | cons hd' rest ih =>
    obtain ⟨m, x⟩ := hd'
    rw [hasBrokenList, Bool.or_eq_false_iff] at hd
    rcases List.mem_cons.mp h with heq | hmem
    · cases heq; exact hd.1
    · exact ih hd.2 hmem

theorem hasBrokenList_filter {d : Listing} (p : String × Entry → Bool)
    (hd : hasBrokenList d = false) : hasBrokenList (d.filter p) = false := by
  induction d with
  | nil => rfl
  | cons hd' rest ih =>
    obtain ⟨m, x⟩ := hd'
    rw [hasBrokenList, Bool.or_eq_false_iff] at hd
    by_cases hp : p (m, x) = true
    · simpa [List.filter, hp, hasBrokenList, hd.1] using ih hd.2
    · simpa [List.filter, hp] using ih hd.2

theorem hasBrokenList_updateEntry {d : Listing} {n : String} {e : Entry}
    (hd : hasBrokenList d = false) (he : hasBroken e = false) :
    hasBrokenList (updateEntry d n e) = false := by
  induction d with
  | nil => simpa [updateEntry, hasBrokenList] using he
  | cons hd' rest ih =>
    obtain ⟨m, x⟩ := hd'
    rw [hasBrokenList, Bool.or_eq_false_iff] at hd
    by_cases hmn : m = n
    · subst hmn
      simp [updateEntry, hasBrokenList, he, hd.2]
    · simp [updateEntry, hmn, hasBrokenList, hd.1, ih hd.2]

theorem hasBrokenList_append {a b : List (String × Entry)} :
    hasBrokenList (a ++ b) = (hasBrokenList a || hasBrokenList b) := by
  induction a with
  | nil => simp [hasBrokenList]
  | cons hd rest ih =>
    obtain ⟨m, x⟩ := hd
    simp [hasBrokenList, ih, Bool.or_assoc]

theorem not_broken_pathExists {e : Entry} (h : hasBroken e = false) :
    pathExists e = true := by
  cases e <;> simp_all [hasBroken, pathExists]

theorem mem_clearPhase {d : Listing} {n : String} {e : Entry} :
    (n, e) ∈ clearPhase d ↔
      (n, e) ∈ d ∧ (n = "specific" ∨ pathExists e = false) := by
  simp [clearPhase, List.mem_filter]

theorem clearPhase_entry_name {d : Listing} {n : String} {e : Entry}
    (hclean : hasBrokenList d = false) (h : (n, e) ∈ clearPhase d) :
    n = "specific" := by
  rcases (mem_clearPhase.mp h) with ⟨hmem, hs | hbr⟩
  · exact hs
  · have := hasBroken_of_mem hclean hmem
    rw [pathExists_eq_false_iff] at hbr
    subst hbr
    simp [hasBroken] at this

theorem names_clearPhase_subset (d : Listing) :
    names (clearPhase d) ⊆ names d := by
  intro n hn
  obtain ⟨e, hmem⟩ := mem_names.mp hn
  exact mem_names.mpr ⟨e, (mem_clearPhase.mp hmem).1⟩

theorem specific_names_clearPhase {d : Listing}
    (h : "specific" ∈ names d) : "specific" ∈ names (clearPhase d) := by
  obtain ⟨e, hmem⟩ := mem_names.mp h
  exact mem_names.mpr ⟨e, mem_clearPhase.mpr ⟨hmem, Or.inl rfl⟩⟩

theorem clearPhase_eq_nil {d : Listing} (hclean : hasBrokenList d = false)
    (h : "specific" ∉ names d) : clearPhase d = [] := by
  rw [clearPhase, List.filter_eq_nil_iff]
  rintro ⟨n, e⟩ hmem
  have h1 : n ≠ "specific" := by
    rintro rfl
    exact h (mem_names.mpr ⟨e, hmem⟩)
  have h2 : pathExists e = true :=
    not_broken_pathExists (hasBroken_of_mem hclean hmem)
  simp [h1, h2]

theorem findEntry_clearPhase_specific (d : Listing) :
    findEntry (clearPhase d) "specific" = findEntry d "specific" := by
  induction d with
  | nil => rfl
  | cons hd rest ih =>
    obtain ⟨m, x⟩ := hd
    rw [clearPhase] at ih ⊢
    rw [List.filter_cons]
    by_cases hms : m = "specific"
    · subst hms
      simp [findEntry]
    · by_cases hex : pathExists x = true
      · simp [hms, hex, findEntry, ih]
      · have hx : pathExists x = false := by simpa using hex
        simp [hms, hx, findEntry, ih]

theorem findEntry_clearPhase_not_dir {d : Listing} {n : String} {ch : Listing}
    (hn : n ≠ "specific") :
    findEntry (clearPhase d) n ≠ some (.dir ch) := by
  intro h
  have hmem := mem_of_findEntry h
  rcases (mem_clearPhase.mp hmem) with ⟨_, hs | hbr⟩
  · exact hn hs
  · rw [pathExists_eq_false_iff] at hbr
    cases hbr

/-! ## Facts about `copy2` -/

theorem copy2_ok_shape {item : String} {s : Entry} {dst dst2 : Listing}
    (h : copy2 item s dst = .ok dst2) :
    ∃ c, s = .file c ∧
      (dst2 = updateEntry dst item (.file c) ∨
        ∃ ch, findEntry dst item = some (.dir ch) ∧
          dst2 = updateEntry dst item (.dir (updateEntry ch item (.file c)))) := by
  cases s with
  | broken => simp [copy2] at h
  | dir ch => simp [copy2] at h
  | file c =>
    refine ⟨c, rfl, ?_⟩
    rw [copy2] at h
    cases hf : findEntry dst item with
    | none =>
      rw [hf] at h
      simp only [Except.ok.injEq] at h
      exact Or.inl h.symm
    | some e =>
      cases e with
      | dir ch =>
        rw [hf] at h
        simp only [Except.ok.injEq] at h
        exact Or.inr ⟨ch, rfl, h.symm⟩
      | file c' =>
        rw [hf] at h
        simp only [Except.ok.injEq] at h
        exact Or.inl h.symm
      | broken =>
        rw [hf] at h
        simp only [Except.ok.injEq] at h
        exact Or.inl h.symm

theorem copy2_findEntry_ne {item : String} {s : Entry} {dst dst2 : Listing}
    {n : String} (h : copy2 item s dst = .ok dst2) (hne : n ≠ item) :
    findEntry dst2 n = findEntry dst n := by
  obtain ⟨c, _, hsh | ⟨ch, _, hsh⟩⟩ := copy2_ok_shape h <;>
    simp [hsh, findEntry_updateEntry_ne _ hne]

theorem copy2_findEntry_self_file {item : String} {s : Entry} {dst dst2 : Listing}
    (h : copy2 item s dst = .ok dst2)
    (hnotdir : ∀ ch, findEntry dst item ≠ some (.dir ch)) :
    ∃ c, s = .file c ∧ findEntry dst2 item = some (.file c) := by
  obtain ⟨c, hs, hsh | ⟨ch, hf, _⟩⟩ := copy2_ok_shape h
  · exact ⟨c, hs, by simp [hsh, findEntry_updateEntry_self]⟩
  · exact absurd hf (hnotdir ch)

theorem copy2_mem_ne {item : String} {s : Entry} {dst dst2 : Listing}
    {n : String} {x : Entry} (h : copy2 item s dst = .ok dst2) (hne : n ≠ item) :
    (n, x) ∈ dst2 ↔ (n, x) ∈ dst := by
  obtain ⟨c, _, hsh | ⟨ch, _, hsh⟩⟩ := copy2_ok_shape h <;>
    simp [hsh, mem_updateEntry_ne hne]

theorem copy2_names {item : String} {s : Entry} {dst dst2 : Listing}
    (h : copy2 item s dst = .ok dst2) {m : String} :
    m ∈ names dst2 ↔ m ∈ names dst ∨ m = item := by
  obtain ⟨c, _, hsh | ⟨ch, _, hsh⟩⟩ := copy2_ok_shape h <;>
    simp [hsh, mem_names_updateEntry]

theorem copy2_clean {item : String} {s : Entry} {dst dst2 : Listing}
    (h : copy2 item s dst = .ok dst2) (hclean : hasBrokenList dst = false) :
    hasBrokenList dst2 = false := by
  obtain ⟨c, _, hsh | ⟨ch, hf, hsh⟩⟩ := copy2_ok_shape h
  · subst hsh
    exact hasBrokenList_updateEntry hclean (by simp [hasBroken])
  · subst hsh
    have hchm : hasBroken (.dir ch) = false :=
      hasBroken_of_mem hclean (mem_of_findEntry hf)
    rw [hasBroken] at hchm
    refine hasBrokenList_updateEntry hclean ?_
    rw [hasBroken]
    exact hasBrokenList_updateEntry hchm (by simp [hasBroken])

theorem copy2_broken {item : String} {dst : Listing} :
    copy2 item .broken dst = .error (.notFound item) := rfl

/-! ## Facts about the custom `copytree` of the script -/

theorem names_cons (m : String) (x : Entry) (rest : Listing) :
    names ((m, x) :: rest) = m :: names rest := rfl

theorem findEntry_isSome_of_mem {d : Listing} {n : String}
    (h : n ∈ names d) : ∃ e, findEntry d n = some e := by
  induction d with
  | nil => simp [names] at h
  | cons hd rest ih =>
    obtain ⟨m, x⟩ := hd
    by_cases hmn : m = n
    · exact ⟨x, by simp [findEntry, hmn]⟩
    · rw [names_cons] at h
      rcases List.mem_cons.mp h with heq | hmem
      · exact absurd heq.symm hmn
      · obtain ⟨e, he⟩ := ih hmem
        exact ⟨e, by simpa [findEntry, hmn] using he⟩

theorem copy2_file_ok (item : String) (c : Nat) (dst : Listing) :
    ∃ dst2, copy2 item (.file c) dst = .ok dst2 := by
  rw [copy2]
  cases hf : findEntry dst item with
  | none => exact ⟨_, rfl⟩
  | some e => cases e <;> exact ⟨_, rfl⟩

/-- Inversion of one successful step of the custom `copytree` loop:
the head item of `src` is a directory named `specific` (skipped), another
directory (checked then recursively copied), or a non-directory (handed to
`shutil.copy2`). -/
theorem copytree_cons_ok {item : String} {s : Entry} {rest dst out : Listing}
    (h : copytree ((item, s) :: rest) dst = .ok out) :
    (item = "specific" ∧ isdir s = true ∧ copytree rest dst = .ok out) ∨
    (item ≠ "specific" ∧ isdir s = true ∧ item ∉ names dst ∧
      hasBroken s = false ∧ copytree rest (dst ++ [(item, s)]) = .ok out) ∨
    (isdir s = false ∧ ∃ dst2, copy2 item s dst = .ok dst2 ∧
      copytree rest dst2 = .ok out) := by
  rw [copytree] at h
  split at h
  · rename_i hdir
    split at h
    · rename_i hspec
      exact Or.inl ⟨by simpa using hspec, hdir, h⟩
    · rename_i hspec
      split at h
      · simp at h
      · rename_i hcont
        split at h
        · simp at h
        · rename_i hbr
          refine Or.inr (Or.inl ⟨by simpa using hspec, hdir, ?_, ?_, h⟩)
          · simpa using hcont
          · simpa using hbr
  · rename_i hdir
    split at h
    · simp at h
    · rename_i dst2 hc2
      exact Or.inr (Or.inr ⟨by simpa using hdir, dst2, hc2, h⟩)

/-- The custom `copytree` never touches a destination name that does not occur among the
top-level names of the source. -/
theorem copytree_findEntry_untouched {src : Listing} {dst out : Listing}
    {n : String} (h : copytree src dst = .ok out) (hn : n ∉ names src) :
    findEntry out n = findEntry dst n := by
  induction src generalizing dst with
  | nil =>
    rw [copytree] at h
    simp only [Except.ok.injEq] at h
    rw [h]
  | cons hd rest ih =>
    obtain ⟨item, s⟩ := hd
    rw [names_cons] at hn
    have hni : n ≠ item ∧ n ∉ names rest := by simpa [not_or] using hn
    rcases copytree_cons_ok h with ⟨_, _, hrec⟩ | ⟨_, _, _, _, hrec⟩ |
      ⟨_, dst2, hc2, hrec⟩
    · exact ih hrec hni.2
    · rw [ih hrec hni.2, findEntry_append_sngl (Ne.symm hni.1)]
    · rw [ih hrec hni.2, copy2_findEntry_ne hc2 hni.1]

/-- The custom `copytree` never deletes a destination name. -/
theorem copytree_names_mono {src dst out : Listing}
    (h : copytree src dst = .ok out) :
    ∀ n, n ∈ names dst → n ∈ names out := by
  induction src generalizing dst with
  | nil =>
    rw [copytree] at h
    simp only [Except.ok.injEq] at h
    rw [h]
    exact fun n hn => hn
  | cons hd rest ih =>
    obtain ⟨item, s⟩ := hd
    intro n hn
    rcases copytree_cons_ok h with ⟨_, _, hrec⟩ | ⟨_, _, _, _, hrec⟩ |
      ⟨_, dst2, hc2, hrec⟩
    · exact ih hrec n hn
    · refine ih hrec n ?_
      rw [names]
      rw [names] at hn
      simpa using Or.inl hn
    · exact ih hrec n ((copy2_names hc2).mpr (Or.inl hn))

/-- Every top-level name of the result of `copytree` was a destination name
or a source name. -/
theorem copytree_names_subset {src dst out : Listing}
    (h : copytree src dst = .ok out) :
    ∀ n, n ∈ names out → n ∈ names dst ∨ n ∈ names src := by
  induction src generalizing dst with
  | nil =>
    rw [copytree] at h
    simp only [Except.ok.injEq] at h
    rw [h]
    exact fun n hn => Or.inl hn
  | cons hd rest ih =>
    obtain ⟨item, s⟩ := hd
    intro n hn
    rw [names_cons]
    rcases copytree_cons_ok h with ⟨_, _, hrec⟩ | ⟨_, _, _, _, hrec⟩ |
      ⟨_, dst2, hc2, hrec⟩
    · rcases ih hrec n hn with hl | hr
      · exact Or.inl hl
      · exact Or.inr (List.mem_cons_of_mem _ hr)
    · rcases ih hrec n hn with hl | hr
      · rw [names, List.map_append] at hl
        rcases List.mem_append.mp hl with hll | hlr
        · exact Or.inl hll
        · simp only [List.map_cons, List.map_nil, List.mem_singleton] at hlr
          exact Or.inr (hlr ▸ List.mem_cons_self _ _)
      · exact Or.inr (List.mem_cons_of_mem _ hr)
    · rcases ih hrec n hn with hl | hr
      · rcases (copy2_names hc2).mp hl with hll | hlr
        · exact Or.inl hll
        · exact Or.inr (hlr ▸ List.mem_cons_self _ _)
      · exact Or.inr (List.mem_cons_of_mem _ hr)

/-- Every source item that is not a directory named `specific` contributes
its name to the result of a successful `copytree`. -/
theorem copytree_contributed {src dst out : Listing}
    (h : copytree src dst = .ok out) {n : String} {e : Entry}
    (hmem : (n, e) ∈ src) (hcase : isdir e = false ∨ n ≠ "specific") :
    n ∈ names out := by
  induction src generalizing dst with
  | nil => simp at hmem
  | cons hd rest ih =>
    obtain ⟨item, s⟩ := hd
    rcases List.mem_cons.mp hmem with heq | hmemr
    · cases heq
      rcases copytree_cons_ok h with ⟨hspec, hdir, _⟩ | ⟨_, _, _, _, hrec⟩ |
        ⟨_, dst2, hc2, hrec⟩
      · rcases hcase with hnd | hns
        · rw [hdir] at hnd; cases hnd
        · exact absurd hspec hns
      · refine copytree_names_mono hrec n ?_
        rw [names, List.map_append]
        exact List.mem_append.mpr (Or.inr (by simp))
      · exact copytree_names_mono hrec n ((copy2_names hc2).mpr (Or.inr rfl))
    · rcases copytree_cons_ok h with ⟨_, _, hrec⟩ | ⟨_, _, _, _, hrec⟩ |
      ⟨_, dst2, hc2, hrec⟩
      · exact ih hrec hmemr
      · exact ih hrec hmemr
      · exact ih hrec hmemr

/-- The central copying fact: under distinct source names, and when no
non-`specific` destination name currently resolves to a directory, a
successful `copytree` leaves every non-`specific` source entry in the
result under its own name with an identical subtree. -/
theorem copytree_copies {src dst out : Listing}
    (hnd : (names src).Nodup)
    (hP : ∀ m, m ∈ names src → m ≠ "specific" →
      ∀ ch, findEntry dst m ≠ some (Entry.dir ch))
    (h : copytree src dst = .ok out) {n : String} {e : Entry}
    (hmem : (n, e) ∈ src) (hn : n ≠ "specific") :
    findEntry out n = some e := by
  induction src generalizing dst with
  | nil => simp at hmem
  | cons hd rest ih =>
    obtain ⟨item, s⟩ := hd
    rw [names_cons] at hnd hP
    have hitem_notin : item ∉ names rest := (List.nodup_cons.mp hnd).1
    have hnd' := (List.nodup_cons.mp hnd).2
    rcases List.mem_cons.mp hmem with heq | hmemr
    · cases heq
      rcases copytree_cons_ok h with ⟨hspec, _, _⟩ | ⟨_, _, hnotin, _, hrec⟩ |
        ⟨_, dst2, hc2, hrec⟩
      · exact absurd hspec hn
      · rw [copytree_findEntry_untouched hrec hitem_notin]
        exact findEntry_append_self hnotin
      · have hnotdir : ∀ ch, findEntry dst n ≠ some (Entry.dir ch) :=
          hP n (List.mem_cons_self _ _) hn
        obtain ⟨c, hs, hfind⟩ := copy2_findEntry_self_file hc2 hnotdir
        rw [copytree_findEntry_untouched hrec hitem_notin, hfind, hs]
    · have hnitem : ∀ m, m ∈ names rest → m ≠ item := by
        intro m hm
        rintro rfl
        exact hitem_notin hm
      rcases copytree_cons_ok h with ⟨_, _, hrec⟩ | ⟨_, _, _, _, hrec⟩ |
        ⟨_, dst2, hc2, hrec⟩
      · refine ih hnd' ?_ hrec hmemr
        exact fun m hm hms ch => hP m (List.mem_cons_of_mem _ hm) hms ch
      · refine ih hnd' ?_ hrec hmemr
        intro m hm hms ch
        rw [findEntry_append_sngl (Ne.symm (hnitem m hm))]
        exact hP m (List.mem_cons_of_mem _ hm) hms ch
      · refine ih hnd' ?_ hrec hmemr
        intro m hm hms ch
        rw [copy2_findEntry_ne hc2 (hnitem m hm)]
        exact hP m (List.mem_cons_of_mem _ hm) hms ch

/-- If every source entry named `specific` is a directory, `copytree` never
touches the name `specific` in the destination. -/
theorem copytree_specific_findEntry {src dst out : Listing}
    (hspec : ∀ e, ("specific", e) ∈ src → isdir e = true)
    (h : copytree src dst = .ok out) :
    findEntry out "specific" = findEntry dst "specific" := by
  induction src generalizing dst with
  | nil =>
    rw [copytree] at h
    simp only [Except.ok.injEq] at h
    rw [h]
  | cons hd rest ih =>
    obtain ⟨item, s⟩ := hd
    have hspec' : ∀ e, ("specific", e) ∈ rest → isdir e = true :=
      fun e he => hspec e (List.mem_cons_of_mem _ he)
    rcases copytree_cons_ok h with ⟨_, _, hrec⟩ | ⟨hne, _, _, _, hrec⟩ |
      ⟨hdir, dst2, hc2, hrec⟩
    · exact ih hspec' hrec
    · rw [ih hspec' hrec, findEntry_append_sngl hne]
    · have hne : item ≠ "specific" := by
        rintro rfl
        rw [hspec s (List.mem_cons_self _ _)] at hdir
        cases hdir
      rw [ih hspec' hrec, copy2_findEntry_ne hc2 (Ne.symm hne)]

/-- If every source entry named `specific` is a directory, `copytree` never
introduces the name `specific`. -/
theorem copytree_specific_names {src dst out : Listing}
    (hspec : ∀ e, ("specific", e) ∈ src → isdir e = true)
    (h : copytree src dst = .ok out)
    (hnot : "specific" ∉ names dst) : "specific" ∉ names out := by
  intro hmem
  obtain ⟨e, he⟩ := findEntry_isSome_of_mem hmem
  rw [copytree_specific_findEntry hspec h, findEntry_eq_none hnot] at he
  cases he

/-- Under distinct source names, when the non-`specific` source names are
absent from the destination, every non-`specific` entry of the result of a
successful `copytree` is an untouched destination entry or a source entry. -/
theorem copytree_mem {src dst out : Listing}
    (hnd : (names src).Nodup)
    (hQ : ∀ m, m ∈ names src → m ≠ "specific" → m ∉ names dst)
    (h : copytree src dst = .ok out) {n : String} {x : Entry}
    (hmem : (n, x) ∈ out) (hn : n ≠ "specific") :
    (n, x) ∈ dst ∨ (n, x) ∈ src := by
  induction src generalizing dst with
  | nil =>
    rw [copytree] at h
    simp only [Except.ok.injEq] at h
    rw [h]
    exact Or.inl hmem
  | cons hd rest ih =>
    obtain ⟨item, s⟩ := hd
    rw [names_cons] at hnd hQ
    have hitem_notin : item ∉ names rest := (List.nodup_cons.mp hnd).1
    have hnd' := (List.nodup_cons.mp hnd).2
    have hnitem : ∀ m, m ∈ names rest → m ≠ item := by
      intro m hm
      rintro rfl
      exact hitem_notin hm
    rcases copytree_cons_ok h with ⟨hspec, _, hrec⟩ | ⟨hne, _, hnotin, _, hrec⟩ |
      ⟨hdir, dst2, hc2, hrec⟩
    · have hQ' : ∀ m, m ∈ names rest → m ≠ "specific" → m ∉ names dst :=
        fun m hm hms => hQ m (List.mem_cons_of_mem _ hm) hms
      rcases ih hnd' hQ' hrec with hl | hr
      · exact Or.inl hl
      · exact Or.inr (List.mem_cons_of_mem _ hr)
    · have hQ' : ∀ m, m ∈ names rest → m ≠ "specific" →
          m ∉ names (dst ++ [(item, s)]) := by
        intro m hm hms hmm
        rw [names, List.map_append] at hmm
        rcases List.mem_append.mp hmm with hl | hr
        · exact hQ m (List.mem_cons_of_mem _ hm) hms hl
        · simp only [List.map_cons, List.map_nil, List.mem_singleton] at hr
          exact hnitem m hm hr
      rcases ih hnd' hQ' hrec with hl | hr
      · rcases List.mem_append.mp hl with hll | hlr
        · exact Or.inl hll
        · rw [List.mem_singleton] at hlr
          exact Or.inr (hlr ▸ List.mem_cons_self _ _)
      · exact Or.inr (List.mem_cons_of_mem _ hr)
    · have hQ' : ∀ m, m ∈ names rest → m ≠ "specific" → m ∉ names dst2 := by
        intro m hm hms hmm
        rcases (copy2_names hc2).mp hmm with hl | hr
        · exact hQ m (List.mem_cons_of_mem _ hm) hms hl
        · exact hnitem m hm hr
      by_cases hitem : item = "specific"
      · subst hitem
        rcases ih hnd' hQ' hrec with hl | hr
        · obtain ⟨c, _, hsh | ⟨ch, _, hsh⟩⟩ := copy2_ok_shape hc2 <;>
            exact Or.inl ((mem_updateEntry_ne hn).mp (hsh ▸ hl))
        · exact Or.inr (List.mem_cons_of_mem _ hr)
      · have hnd2 : item ∉ names dst :=
          hQ item (List.mem_cons_self _ _) hitem
        have hfn : findEntry dst item = none := findEntry_eq_none hnd2
        obtain ⟨c, hs, hsh | ⟨ch, hf, _⟩⟩ := copy2_ok_shape hc2
        · rw [updateEntry_eq_append hnd2] at hsh
          rcases ih hnd' hQ' hrec with hl | hr
          · rw [hsh] at hl
            rcases List.mem_append.mp hl with hll | hlr
            · exact Or.inl hll
            · rw [List.mem_singleton] at hlr
              exact Or.inr (hlr ▸ hs ▸ List.mem_cons_self _ _)
          · exact Or.inr (List.mem_cons_of_mem _ hr)
        · rw [hfn] at hf
          cases hf

/-- When the source tree holds no dangling link, its top-level names are
distinct, and its non-`specific` names are absent from the destination, the
custom `copytree` succeeds. -/
theorem copytree_ok_of {src : Listing} : ∀ {dst : Listing},
    hasBrokenList src = false → (names src).Nodup →
    (∀ m, m ∈ names src → m ≠ "specific" → m ∉ names dst) →
    ∃ out, copytree src dst = .ok out := by
  induction src with
  | nil => exact fun _ _ _ => ⟨_, rfl⟩
  | cons hd rest ih =>
    obtain ⟨item, s⟩ := hd
    intro dst hclean hnd hQ
    rw [hasBrokenList, Bool.or_eq_false_iff] at hclean
    rw [names_cons] at hnd hQ
    have hitem_notin : item ∉ names rest := (List.nodup_cons.mp hnd).1
    have hnd' := (List.nodup_cons.mp hnd).2
    have hnitem : ∀ m, m ∈ names rest → m ≠ item := by
      intro m hm
      rintro rfl
      exact hitem_notin hm
    cases s with
    | broken => simp [hasBroken] at hclean
    | dir ch =>
      by_cases hspec : item = "specific"
      · obtain ⟨out, hout⟩ := ih hclean.2 hnd'
          (fun m hm hms => hQ m (List.mem_cons_of_mem _ hm) hms)
        exact ⟨out, by rw [copytree]; simpa [isdir, hspec] using hout⟩
      · have hnot : item ∉ names dst := hQ item (List.mem_cons_self _ _) hspec
        have hQ2 : ∀ m, m ∈ names rest → m ≠ "specific" →
            m ∉ names (dst ++ [(item, Entry.dir ch)]) := by
          intro m hm hms hmm
          rw [names, List.map_append] at hmm
          rcases List.mem_append.mp hmm with hl | hr
          · exact hQ m (List.mem_cons_of_mem _ hm) hms hl
          · simp only [List.map_cons, List.map_nil, List.mem_singleton] at hr
            exact hnitem m hm hr
        obtain ⟨out, hout⟩ := ih hclean.2 hnd' hQ2
        refine ⟨out, ?_⟩
        rw [copytree]
        simpa [isdir, hspec, hnot, hclean.1] using hout
    | file c =>
      obtain ⟨dst2, hc2⟩ := copy2_file_ok item c dst
      have hQ2 : ∀ m, m ∈ names rest → m ≠ "specific" → m ∉ names dst2 := by
        intro m hm hms hmm
        rcases (copy2_names hc2).mp hmm with hl | hr
        · exact hQ m (List.mem_cons_of_mem _ hm) hms hl
        · exact hnitem m hm hr
      obtain ⟨out, hout⟩ := ih hclean.2 hnd' hQ2
      refine ⟨out, ?_⟩
      rw [copytree]
      simpa [isdir, hc2] using hout

/-- The custom `copytree` introduces no dangling link into a destination free of them. -/
theorem copytree_clean {src dst out : Listing}
    (h : copytree src dst = .ok out) (hclean : hasBrokenList dst = false) :
    hasBrokenList out = false := by
  induction src generalizing dst with
  | nil =>
    rw [copytree] at h
    simp only [Except.ok.injEq] at h
    rw [h] at hclean
    exact hclean
  | cons hd rest ih =>
    obtain ⟨item, s⟩ := hd
    rcases copytree_cons_ok h with ⟨_, _, hrec⟩ | ⟨_, _, _, hbr, hrec⟩ |
      ⟨_, dst2, hc2, hrec⟩
    · exact ih hrec hclean
    · refine ih hrec ?_
      rw [hasBrokenList_append]
      simp [hasBrokenList, hclean, hbr]
    · exact ih hrec (copy2_clean hc2 hclean)

/-! ## Facts about `sync` -/

theorem left_only_eq_nil_iff {d1 d2 : Listing} :
    left_only d1 d2 = [] ↔ ∀ n ∈ names d1, n ∈ names d2 := by
  rw [left_only, List.filter_eq_nil_iff]
  simp

theorem left_only_ne_nil {d1 d2 : Listing} {n : String}
    (h1 : n ∈ names d1) (h2 : n ∉ names d2) : left_only d1 d2 ≠ [] := by
  intro h
  exact h2 (left_only_eq_nil_iff.mp h n h1)

theorem sync_copy_eq {d1 d2 out : Listing} (hdiff : left_only d1 d2 ≠ [])
    (hout : copytree d1 (clearPhase d2) = .ok out) :
    sync d1 d2 = .ok ⟨out, false⟩ := by
  rw [sync, hout]
  simp [List.isEmpty_iff, hdiff]

/-- A successful run went through exactly one of the two paths of `main`:
the no-action path (destination untouched, message printed) or the
clear-and-copy path. -/
theorem sync_ok_cases {d1 d2 : Listing} {r : SyncResult}
    (h : sync d1 d2 = .ok r) :
    (left_only d1 d2 = [] ∧ r = ⟨d2, true⟩) ∨
    (left_only d1 d2 ≠ [] ∧ copytree d1 (clearPhase d2) = .ok r.dest ∧
      r.noopMessage = false) := by
  rw [sync] at h
  split at h
  · rename_i hemp
    refine Or.inl ⟨by simpa [List.isEmpty_iff] using hemp, ?_⟩
    simp only [Except.ok.injEq] at h
    exact h.symm
  · rename_i hemp
    have hemp' : ¬ left_only d1 d2 = [] := by
      simpa [List.isEmpty_iff] using hemp
    split at h
    · simp at h
    · rename_i d hd
      simp only [Except.ok.injEq] at h
      refine Or.inr ⟨hemp', ?_, ?_⟩
      · rw [← h]
        exact hd
      · rw [← h]

example : sync [("a", .file 1)] [("a", .file 2)] = .ok ⟨[("a", .file 2)], true⟩ := by
  rfl

example :
    sync [("a", .file 1), ("b", .dir [("x", .file 3)])] [("specific", .file 9)]
      = .ok ⟨[("specific", .file 9), ("a", .file 1), ("b", .dir [("x", .file 3)])], false⟩ := by
  rfl

/-! ## The claims -/

/-- Claim C1: for every pair of trees where `directory1` has at least one
top-level child name absent from `directory2`, after `sync` completes
successfully every top-level entry of `directory1` other than the reserved
name `specific` exists in the final `directory2` under its own name with an
identical subtree.  (Top-level source names are distinct, as `os.listdir`
guarantees on a real filesystem.) -/
theorem C1_source_copied (d1 d2 : Listing) (r : SyncResult)
    (hnd1 : (names d1).Nodup) (hdiff : left_only d1 d2 ≠ [])
    (hok : sync d1 d2 = .ok r) (n : String) (e : Entry)
    (hmem : (n, e) ∈ d1) (hn : n ≠ "specific") :
    findEntry r.dest n = some e := by
  rcases sync_ok_cases hok with ⟨hnil, _⟩ | ⟨_, hcopy, _⟩
  · exact absurd hnil hdiff
  · exact copytree_copies hnd1
      (fun m _ hms ch => findEntry_clearPhase_not_dir hms) hcopy hmem hn

/-- Claim C1, witnessed on `directory1 = {a}`, `directory2 = {}`. -/
theorem C1_source_copied_witness :
    findEntry (SyncResult.mk [("a", Entry.file 1)] false).dest "a"
      = some (Entry.file 1) :=
  C1_source_copied [("a", Entry.file 1)] [] ⟨[("a", Entry.file 1)], false⟩
    (by simp [names]) (by decide) rfl "a" (Entry.file 1)
    (List.mem_cons_self _ _) (by decide)

/-- Claim C3: when the set of top-level names present in `directory1` but
absent from `directory2` is empty (in particular whenever the two top-level
name sets are identical), `sync` performs zero filesystem mutations (the
destination listing is returned exactly as it was), prints the single
"Directories are identical. No action needed." line, and terminates. -/
theorem C3_noop (d1 d2 : Listing) (h : left_only d1 d2 = []) :
    sync d1 d2 = .ok ⟨d2, true⟩ := by
  rw [sync]
  simp [h]

/-- Claim C3, witnessed on two trees with equal top-level name sets but
different contents. -/
theorem C3_noop_witness :
    left_only [("a", Entry.file 1)] [("a", Entry.file 2)] = [] ∧
    sync [("a", Entry.file 1)] [("a", Entry.file 2)]
      = .ok ⟨[("a", Entry.file 2)], true⟩ :=
  ⟨rfl, C3_noop _ _ rfl⟩

/-- Claim C5: the reserved-name exclusion of the copy routine applies only to
the direct children of `directory1`: a non-`specific` top-level directory
is copied with its entire subtree identical — even when that subtree itself
contains an entry named `specific`, the nested entry is copied rather than
skipped. -/
theorem C5_nested_specific_copied (d1 d2 : Listing) (r : SyncResult)
    (hnd1 : (names d1).Nodup) (hdiff : left_only d1 d2 ≠ [])
    (hok : sync d1 d2 = .ok r) (n : String) (ch : Listing) (sub : Entry)
    (hmem : (n, Entry.dir ch) ∈ d1) (hn : n ≠ "specific")
    (_hnested : ("specific", sub) ∈ ch) :
    findEntry r.dest n = some (Entry.dir ch) := by
  rcases sync_ok_cases hok with ⟨hnil, _⟩ | ⟨_, hcopy, _⟩
  · exact absurd hnil hdiff
  · exact copytree_copies hnd1
      (fun m _ hms ch' => findEntry_clearPhase_not_dir hms) hcopy hmem hn

/-- Claim C5, witnessed on a source directory `a/` containing a nested
`specific` file: the whole subtree, nested `specific` included, reaches the
destination. -/
theorem C5_nested_specific_copied_witness :
    findEntry
      (SyncResult.mk [("a", Entry.dir [("specific", Entry.file 4)])] false).dest
      "a" = some (Entry.dir [("specific", Entry.file 4)]) :=
  C5_nested_specific_copied [("a", Entry.dir [("specific", Entry.file 4)])] []
    ⟨[("a", Entry.dir [("specific", Entry.file 4)])], false⟩
    (by simp [names]) (by decide) rfl "a" [("specific", Entry.file 4)]
    (Entry.file 4) (List.mem_cons_self _ _) (by decide)
    (List.mem_cons_self _ _)

/-- Claim C8: scenario C of the spec.  With `directory1 = {a/, c/}` and
`directory2 = {a/, b/, specific/}`, the name sets differ (`c` is missing), so
the entries `a/` and `b/` of `directory2` are deleted, `specific/` is kept untouched, and
`a/` and `c/` are copied over from `directory1`: the final top-level listing
of `directory2` is exactly `{specific/, a/, c/}`, with `b/` gone. -/
theorem C8_scenario_c :
    sync
      [("a", Entry.dir [("f", Entry.file 1)]), ("c", Entry.dir [])]
      [("a", Entry.dir [("g", Entry.file 2)]), ("b", Entry.dir []),
        ("specific", Entry.dir [("u", Entry.file 3)])]
      = .ok ⟨[("specific", Entry.dir [("u", Entry.file 3)]),
          ("a", Entry.dir [("f", Entry.file 1)]), ("c", Entry.dir [])], false⟩ ∧
    names [("specific", Entry.dir [("u", Entry.file 3)]),
        ("a", Entry.dir [("f", Entry.file 1)]), ("c", Entry.dir [])]
      = ["specific", "a", "c"] ∧
    findEntry [("specific", Entry.dir [("u", Entry.file 3)]),
        ("a", Entry.dir [("f", Entry.file 1)]), ("c", Entry.dir [])] "b"
      = none :=
  ⟨rfl, rfl, rfl⟩

/-- Claim C10: during the deletion phase, a top-level entry of `directory2`
other than `specific` is removed only if `os.path.exists` reports it as
existing; an entry for which that check is false — a dangling symbolic link —
is skipped and survives the clear phase unchanged. -/
theorem C10_clear_skips_nonexisting (d2 : Listing) :
    (∀ n e, (n, e) ∈ d2 → pathExists e = false → (n, e) ∈ clearPhase d2) ∧
    (∀ n e, (n, e) ∈ d2 → (n, e) ∉ clearPhase d2 →
      n ≠ "specific" ∧ pathExists e = true) := by
  constructor
  · intro n e hmem hne
    exact mem_clearPhase.mpr ⟨hmem, Or.inr hne⟩
  · intro n e hmem hnot
    constructor
    · rintro rfl
      exact hnot (mem_clearPhase.mpr ⟨hmem, Or.inl rfl⟩)
    · by_contra h
      have hfalse : pathExists e = false := by simpa using h
      exact hnot (mem_clearPhase.mpr ⟨hmem, Or.inr hfalse⟩)

/-- Claim C10, witnessed on a destination holding a dangling link `x` next to
a regular file `y`: the dangling link survives the clear phase. -/
theorem C10_clear_skips_nonexisting_witness :
    ("x", Entry.broken) ∈ clearPhase [("x", Entry.broken), ("y", Entry.file 1)] :=
  (C10_clear_skips_nonexisting _).1 "x" Entry.broken (List.mem_cons_self _ _) rfl

/-- Claim C2 as stated is false on the code: when `directory1` holds a
top-level *file* named `specific`, the `else` branch of the copy routine applies
`shutil.copy2` to it with no name check, overwriting the `specific` entry of
`directory2`.  Here the `specific` entry of `directory2` held content 9 before the run
and content 7 — copied from the source — after it. -/
theorem C2_counterexample :
    sync [("x", Entry.file 1), ("specific", Entry.file 7)]
        [("specific", Entry.file 9)]
      = .ok ⟨[("specific", Entry.file 7), ("x", Entry.file 1)], false⟩ ∧
    findEntry [("specific", Entry.file 9)] "specific" = some (Entry.file 9) ∧
    findEntry [("specific", Entry.file 7), ("x", Entry.file 1)] "specific"
      = some (Entry.file 7) ∧
    Entry.file 7 ≠ Entry.file 9 :=
  ⟨rfl, rfl, rfl, by simp⟩

/-- Claim C2 (amended): the top-level `specific` entry of `directory2` is
never deleted, and — provided any top-level entry named `specific` in
`directory1` is a directory — it is never overwritten either: whatever run
`sync` takes, the name `specific` resolves in the final destination to
exactly the entry (and contents) it had before.  (A top-level *file* named
`specific` in the source is copied over it; that is the one exception.) -/
theorem C2_specific_preserved (d1 d2 : Listing) (r : SyncResult)
    (hspec : ∀ e, ("specific", e) ∈ d1 → isdir e = true)
    (hok : sync d1 d2 = .ok r) :
    findEntry r.dest "specific" = findEntry d2 "specific" := by
  rcases sync_ok_cases hok with ⟨_, hr⟩ | ⟨_, hcopy, _⟩
  · rw [hr]
  · rw [copytree_specific_findEntry hspec hcopy, findEntry_clearPhase_specific]

/-- Claim C2 (amended), witnessed: a source with a directory `specific/` and
an extra file, run against a destination whose `specific` is a file. -/
theorem C2_specific_preserved_witness :
    findEntry [("specific", Entry.file 9), ("a", Entry.file 1)] "specific"
      = findEntry [("specific", Entry.file 9)] "specific" :=
  C2_specific_preserved
    [("a", Entry.file 1), ("specific", Entry.dir [("s", Entry.file 5)])]
    [("specific", Entry.file 9)]
    ⟨[("specific", Entry.file 9), ("a", Entry.file 1)], false⟩
    (by
      intro e he
      rcases List.mem_cons.mp he with h1 | h2
      · have hbad : ("specific" : String) = "a" := congrArg Prod.fst h1
        exact absurd hbad (by decide)
      · have h3 : e = Entry.dir [("s", Entry.file 5)] :=
          congrArg Prod.snd (List.mem_singleton.mp h2)
        rw [h3]
        rfl)
    rfl

/-- Claim C7 as stated is false on the code: on the no-op path (taken here
because the top-level name sets agree) nothing is copied, so a destination
entry can differ from the same-named source entry after a successful run:
the entry `a` of `directory2` still holds content 2 while the entry `a` of `directory1` holds 1. -/
theorem C7_counterexample :
    sync [("a", Entry.file 1)] [("a", Entry.file 2)]
      = .ok ⟨[("a", Entry.file 2)], true⟩ ∧
    ("a", Entry.file 2) ∈ ([("a", Entry.file 2)] : Listing) ∧
    findEntry [("a", Entry.file 1)] "a" = some (Entry.file 1) ∧
    Entry.file 2 ≠ Entry.file 1 :=
  ⟨rfl, List.mem_cons_self _ _, rfl, by simp⟩

/-- Claim C7 (amended): after a successful run that takes the clear-and-copy
path (the one-directional name check found a source-only name), every entry
in the final top-level listing of `directory2` not named `specific` is identical
to the same-named top-level entry of `directory1`, and the `specific` entry
is untouched — provided the `specific` entry of the source, if present, is a
directory, the top-level names of the source are distinct, and the destination
holds no dangling link.  On the no-op path the code guarantees nothing about
contents. -/
theorem C7_copy_path_invariant (d1 d2 : Listing) (r : SyncResult)
    (hnd1 : (names d1).Nodup) (hclean2 : hasBrokenList d2 = false)
    (hdiff : left_only d1 d2 ≠ [])
    (hspec : ∀ e, ("specific", e) ∈ d1 → isdir e = true)
    (hok : sync d1 d2 = .ok r) :
    (∀ n x, (n, x) ∈ r.dest → n ≠ "specific" → findEntry d1 n = some x) ∧
    findEntry r.dest "specific" = findEntry d2 "specific" := by
  rcases sync_ok_cases hok with ⟨hnil, _⟩ | ⟨_, hcopy, _⟩
  · exact absurd hnil hdiff
  constructor
  · intro n x hmem hn
    have hQ : ∀ m, m ∈ names d1 → m ≠ "specific" →
        m ∉ names (clearPhase d2) := by
      intro m _ hms hmm
      obtain ⟨e, he⟩ := mem_names.mp hmm
      exact hms (clearPhase_entry_name hclean2 he)
    rcases copytree_mem hnd1 hQ hcopy hmem hn with hl | hr
    · exact absurd (clearPhase_entry_name hclean2 hl) hn
    · exact findEntry_of_mem_nodup hnd1 hr
  · rw [copytree_specific_findEntry hspec hcopy, findEntry_clearPhase_specific]

/-- Claim C7 (amended), witnessed on `directory1 = {a}` against
`directory2 = {b, specific}`. -/
theorem C7_copy_path_invariant_witness :
    (∀ n x,
      (n, x) ∈ (SyncResult.mk [("specific", Entry.file 9), ("a", Entry.file 1)]
          false).dest →
      n ≠ "specific" → findEntry [("a", Entry.file 1)] n = some x) ∧
    findEntry (SyncResult.mk [("specific", Entry.file 9), ("a", Entry.file 1)]
        false).dest "specific"
      = findEntry [("b", Entry.file 3), ("specific", Entry.file 9)] "specific" :=
  C7_copy_path_invariant [("a", Entry.file 1)]
    [("b", Entry.file 3), ("specific", Entry.file 9)]
    ⟨[("specific", Entry.file 9), ("a", Entry.file 1)], false⟩
    (by simp [names]) rfl (by decide)
    (by
      intro e he
      have hbad : ("specific" : String) = "a" :=
        congrArg Prod.fst (List.mem_singleton.mp he)
      exact absurd hbad (by decide))
    rfl

/-- Claim C6 as stated is false on the code: the deletion phase removes a
non-`specific` top-level directory wholesale with `shutil.rmtree`, so an
entry named `specific` nested inside it is deleted rather than spared.
Here `directory2 = {a/{specific/{keep}}}` and the sync against
`directory1 = {b}` deletes `a` entirely, nested `specific` included. -/
theorem C6_counterexample :
    sync [("b", Entry.file 1)]
        [("a", Entry.dir [("specific", Entry.dir [("keep", Entry.file 5)])])]
      = .ok ⟨[("b", Entry.file 1)], false⟩ ∧
    findEntry [("b", Entry.file 1)] "a" = none :=
  ⟨rfl, rfl⟩

/-- Claim C6 (amended): when the trees differ, `sync` replaces the
destination tree with a copy of the source tree, with the reserved name
excluded from deletion and from copying only as a direct child of the
top-level directories: every final top-level name is `specific` or a source
name, every non-`specific` source entry arrives with an identical (fully
copied) subtree, and the top-level `specific` entry of the destination is
preserved; nested entries named `specific` are deleted with their parent
and copied with their parent.  (Source `specific`, if present, a directory;
distinct source names; destination free of dangling links.) -/
theorem C6_replace_toplevel_only (d1 d2 : Listing) (r : SyncResult)
    (hnd1 : (names d1).Nodup) (hclean2 : hasBrokenList d2 = false)
    (hdiff : left_only d1 d2 ≠ [])
    (hspec : ∀ e, ("specific", e) ∈ d1 → isdir e = true)
    (hok : sync d1 d2 = .ok r) :
    (∀ n, n ∈ names r.dest → n = "specific" ∨ n ∈ names d1) ∧
    (∀ n e, (n, e) ∈ d1 → n ≠ "specific" → findEntry r.dest n = some e) ∧
    findEntry r.dest "specific" = findEntry d2 "specific" := by
  rcases sync_ok_cases hok with ⟨hnil, _⟩ | ⟨_, hcopy, _⟩
  · exact absurd hnil hdiff
  refine ⟨?_, ?_, ?_⟩
  · intro n hn
    rcases copytree_names_subset hcopy n hn with hl | hr
    · obtain ⟨e, he⟩ := mem_names.mp hl
      exact Or.inl (clearPhase_entry_name hclean2 he)
    · exact Or.inr hr
  · intro n e hmem hn
    exact copytree_copies hnd1
      (fun m _ hms ch => findEntry_clearPhase_not_dir hms) hcopy hmem hn
  · rw [copytree_specific_findEntry hspec hcopy, findEntry_clearPhase_specific]

/-- Claim C6 (amended), witnessed on `directory1 = {b}` against
`directory2 = {a/, specific/}`. -/
theorem C6_replace_toplevel_only_witness :
    (∀ n, n ∈ names (SyncResult.mk
        [("specific", Entry.dir []), ("b", Entry.file 1)] false).dest →
      n = "specific" ∨ n ∈ names [("b", Entry.file 1)]) ∧
    (∀ n e, (n, e) ∈ ([("b", Entry.file 1)] : Listing) → n ≠ "specific" →
      findEntry (SyncResult.mk
        [("specific", Entry.dir []), ("b", Entry.file 1)] false).dest n
        = some e) ∧
    findEntry (SyncResult.mk
        [("specific", Entry.dir []), ("b", Entry.file 1)] false).dest "specific"
      = findEntry [("a", Entry.dir []), ("specific", Entry.dir [])] "specific" :=
  C6_replace_toplevel_only [("b", Entry.file 1)]
    [("a", Entry.dir []), ("specific", Entry.dir [])]
    ⟨[("specific", Entry.dir []), ("b", Entry.file 1)], false⟩
    (by simp [names]) rfl (by decide)
    (by
      intro e he
      have hbad : ("specific" : String) = "b" :=
        congrArg Prod.fst (List.mem_singleton.mp he)
      exact absurd hbad (by decide))
    rfl

/-- Claim C9: `main` installs no exception handler and defines no error type
of its own: a missing input directory surfaces the underlying
`FileNotFoundError` unchanged (the comparison lists `directory1` first, then
`directory2`), and when no underlying filesystem operation fails — both
inputs exist and neither tree holds a dangling link, with distinct top-level
source names — `sync` raises nothing and returns a result.  Errors of the
run are exactly the propagated filesystem errors. -/
theorem C9_error_propagation :
    (∀ o2, syncPaths none o2 = .error (.notFound "directory1")) ∧
    (∀ d1, syncPaths (some d1) none = .error (.notFound "directory2")) ∧
    (∀ d1 d2, hasBrokenList d1 = false → hasBrokenList d2 = false →
      (names d1).Nodup → ∃ r, sync d1 d2 = .ok r) := by
  refine ⟨fun _ => rfl, fun _ => rfl, fun d1 d2 hc1 hc2 hnd => ?_⟩
  by_cases hnil : left_only d1 d2 = []
  · exact ⟨⟨d2, true⟩, by rw [sync]; simp [hnil]⟩
  · have hQ : ∀ m, m ∈ names d1 → m ≠ "specific" →
        m ∉ names (clearPhase d2) := by
      intro m _ hms hmm
      obtain ⟨e, he⟩ := mem_names.mp hmm
      exact hms (clearPhase_entry_name hc2 he)
    obtain ⟨out, hout⟩ := copytree_ok_of hc1 hnd hQ
    exact ⟨⟨out, false⟩, sync_copy_eq hnil hout⟩

/-- Claim C9, witnessed: a missing `directory1` propagates the not-found
error, and a clean concrete pair of trees completes without error. -/
theorem C9_error_propagation_witness :
    syncPaths none (some [("a", Entry.file 1)])
      = .error (.notFound "directory1") ∧
    ∃ r, sync [("a", Entry.file 1)] [("b", Entry.file 2)] = .ok r :=
  ⟨C9_error_propagation.1 (some [("a", Entry.file 1)]),
    C9_error_propagation.2.2 [("a", Entry.file 1)] [("b", Entry.file 2)]
      rfl rfl (by simp [names])⟩

/-- Claim C4 as stated is false on the code: the end state of running `sync`
twice does equal the end state of one run, but the second run does not always
take the no-op path.  Here `directory1 = {a, specific/}` and
`directory2 = {}`: the first run copies only `a` (the directory `specific/`
is skipped), so the second run still finds `specific` missing from the
destination and repeats the clear-and-copy (its result records
`noopMessage = false`, and no "no action needed" line is printed). -/
theorem C4_counterexample :
    sync [("a", Entry.file 0), ("specific", Entry.dir [])] []
      = .ok ⟨[("a", Entry.file 0)], false⟩ ∧
    sync [("a", Entry.file 0), ("specific", Entry.dir [])] [("a", Entry.file 0)]
      = .ok ⟨[("a", Entry.file 0)], false⟩ :=
  ⟨rfl, rfl⟩

/-- Claim C4 (amended): with distinct top-level source names and a
destination free of dangling links, running `sync` twice in succession with
no external changes produces the same end state of `directory2` as running it
once; the second run takes the no-op path exactly when it is not the case
that `directory1` has a top-level *directory* named `specific` while the
original `directory2` had no top-level entry named `specific` (in that one
case the second run repeats the clear-and-copy but reproduces the same
state). -/
theorem C4_idempotent (d1 d2 : Listing) (r1 : SyncResult)
    (hnd1 : (names d1).Nodup) (hclean2 : hasBrokenList d2 = false)
    (hok1 : sync d1 d2 = .ok r1) :
    ∃ r2, sync d1 r1.dest = .ok r2 ∧ r2.dest = r1.dest ∧
      (r2.noopMessage = true ↔
        ¬ ((∃ ch, ("specific", Entry.dir ch) ∈ d1) ∧
            "specific" ∉ names d2)) := by
  rcases sync_ok_cases hok1 with ⟨hnil, hr⟩ | ⟨hdiff, hcopy, _⟩
  · subst hr
    refine ⟨⟨d2, true⟩, ?_, rfl, ?_⟩
    · rw [sync]
      simp [hnil]
    · refine iff_of_true rfl ?_
      rintro ⟨⟨ch, hch⟩, hns2⟩
      exact hns2
        (left_only_eq_nil_iff.mp hnil "specific" (mem_names.mpr ⟨_, hch⟩))
  · by_cases hD : (∃ ch, ("specific", Entry.dir ch) ∈ d1) ∧
        "specific" ∉ names d2
    · obtain ⟨⟨ch, hch⟩, hns2⟩ := hD
      have hspecdirs : ∀ e, ("specific", e) ∈ d1 → isdir e = true := by
        intro e he
        have he2 : e = Entry.dir ch := entry_unique_of_nodup hnd1 he hch
        rw [he2]
        rfl
      have hK : clearPhase d2 = [] := clearPhase_eq_nil hclean2 hns2
      have hclean0 : hasBrokenList (clearPhase d2) = false := by
        rw [hK]
        rfl
      have hnso : "specific" ∉ names r1.dest :=
        copytree_specific_names hspecdirs hcopy (by rw [hK]; simp [names])
      have hclean_out : hasBrokenList r1.dest = false :=
        copytree_clean hcopy hclean0
      have hdiff2 : left_only d1 r1.dest ≠ [] :=
        left_only_ne_nil (mem_names.mpr ⟨_, hch⟩) hnso
      have hclear2 : clearPhase r1.dest = [] := clearPhase_eq_nil hclean_out hnso
      have hcopy2 : copytree d1 (clearPhase r1.dest) = .ok r1.dest := by
        rw [hclear2, ← hK]
        exact hcopy
      refine ⟨⟨r1.dest, false⟩, sync_copy_eq hdiff2 hcopy2, rfl, ?_⟩
      exact iff_of_false (by simp) (not_not_intro ⟨⟨ch, hch⟩, hns2⟩)
    · have hsub : ∀ n, n ∈ names d1 → n ∈ names r1.dest := by
        intro n hn
        obtain ⟨e, hne⟩ := mem_names.mp hn
        by_cases hcase : isdir e = false ∨ n ≠ "specific"
        · exact copytree_contributed hcopy hne hcase
        · push_neg at hcase
          obtain ⟨hdir, hns⟩ := hcase
          have hdir' : isdir e = true := by simpa using hdir
          obtain ⟨ch, rfl⟩ := isdir_iff.mp hdir'
          subst hns
          have hs2 : "specific" ∈ names d2 := by
            by_contra hss
            exact hD ⟨⟨ch, hne⟩, hss⟩
          exact copytree_names_mono hcopy _ (specific_names_clearPhase hs2)
      have hnil2 : left_only d1 r1.dest = [] := left_only_eq_nil_iff.mpr hsub
      refine ⟨⟨r1.dest, true⟩, ?_, rfl, iff_of_true rfl hD⟩
      rw [sync]
      simp [hnil2]

/-- Claim C4 (amended), witnessed on `directory1 = {a}`, `directory2 = {}`:
the second run is a no-op reproducing the state left by the first run. -/
theorem C4_idempotent_witness :
    ∃ r2, sync [("a", Entry.file 1)]
        (SyncResult.mk [("a", Entry.file 1)] false).dest = .ok r2 ∧
      r2.dest = (SyncResult.mk [("a", Entry.file 1)] false).dest ∧
      (r2.noopMessage = true ↔
        ¬ ((∃ ch, ("specific", Entry.dir ch) ∈
              ([("a", Entry.file 1)] : Listing)) ∧
            "specific" ∉ names ([] : Listing))) :=
  C4_idempotent [("a", Entry.file 1)] [] ⟨[("a", Entry.file 1)], false⟩
    (by simp [names]) rfl rfl
